import Mathlib

/-!
# Verification of the FHEStaking ledger (contracts/FHEStaking.sol)

Shallow embedding of the staking contract. Encrypted `euint64` handles are
modelled by their plaintext value (a natural number reduced modulo `2^64`,
matching the fixed-width 64-bit unsigned semantics of the homomorphic
arithmetic library) together with the list of principals granted decryption
rights on the handle (the FHEVM access-control list for that handle).
Because the ACL is a global per-handle table, a grant issued in the same
transaction as the store is visible on the stored handle; the embedding
therefore applies `allowValue` to a handle before it is written, which is the
net effect of the source's store-then-allow sequences.

Solidity mappings become functions `Nat → Account` (addresses as naturals,
with the zero-initialised default account), `block.timestamp` is an explicit
`now : Nat` parameter, and a `require` failure becomes `Except.error`
(the EVM reverts the whole call, so an error leaves the state unchanged).
`block.timestamp - lastTimestamp` uses truncated natural subtraction; in
Solidity 0.8 the subtraction would revert when `now < lastTimestamp`, a case
unreachable because block timestamps are nondecreasing, and the theorems
carry the corresponding `lastTimestamp ≤ now` hypothesis where it matters.
-/

/-- 64-bit modulus for `euint64` arithmetic. -/
def M64 : Nat := 18446744073709551616

/-- Principals that can appear on a handle's access-control list:
the ledger contract itself (`FHE.allowThis`) or an externally owned address. -/
inductive Principal where
  | ledger : Principal
  | addr : Nat → Principal
deriving DecidableEq

/-- An encrypted `euint64` handle: its plaintext value (always `< 2^64`)
and the decrypt-grant list recorded in the ACL for this handle. -/
structure EHandle where
  val : Nat
  grants : List Principal
deriving DecidableEq

namespace FHE

/-- `FHE.asEuint64` on a plaintext constant: fresh handle, no persistent grants. -/
def asEuint64 (n : Nat) : EHandle := ⟨n % M64, []⟩

/-- `FHE.fromExternal`: the external ciphertext with a valid input proof
yields a fresh handle for the submitter's plaintext (64-bit). -/
def fromExternal (n : Nat) : EHandle := ⟨n % M64, []⟩

/-- `FHE.add` on `euint64`: wrapping 64-bit addition, fresh handle. -/
def add (a b : EHandle) : EHandle := ⟨(a.val + b.val) % M64, []⟩

/-- `FHE.sub` on `euint64`: wrapping 64-bit subtraction, fresh handle. -/
def sub (a b : EHandle) : EHandle := ⟨(a.val + (M64 - b.val % M64)) % M64, []⟩

/-- `FHE.mul` on `euint64`: wrapping 64-bit multiplication, fresh handle. -/
def mul (a b : EHandle) : EHandle := ⟨(a.val * b.val) % M64, []⟩

/-- `FHE.div` by a plaintext constant: truncating integer division. -/
def div (a : EHandle) (n : Nat) : EHandle := ⟨a.val / n, []⟩

end FHE

/-- Per-account storage of the contract: the three encrypted fields and the
two plaintext fields, as in the five mappings of `FHEStaking`. -/
structure Account where
  liquidBalance : EHandle
  stakedBalance : EHandle
  pendingInterest : EHandle
  lastAccrualTimestamp : Nat
  hasClaimed : Bool
deriving DecidableEq

/-- The zero-initialised account a Solidity mapping returns for an
address that was never written. -/
def Account.initial : Account :=
  { liquidBalance := ⟨0, []⟩
    stakedBalance := ⟨0, []⟩
    pendingInterest := ⟨0, []⟩
    lastAccrualTimestamp := 0
    hasClaimed := false }

/-- Contract storage: one account per address. -/
def LedgerState : Type := Nat → Account

/-- Revert reasons of the contract's `require` statements. -/
inductive LedgerErr where
  | alreadyClaimed : LedgerErr
  | claimRequired : LedgerErr
deriving DecidableEq

/-- `INITIAL_GRANT` constant of the contract. -/
def INITIAL_GRANT : Nat := 1000

/-- `getInitialGrant()` view function. -/
def getInitialGrant : Nat := INITIAL_GRANT

/-- `_allowValue(value, user)`: grants decryption to the contract itself
(`FHE.allowThis`) and to the user (`FHE.allow(value, user)`). The ACL is
keyed by handle, so the grant is recorded on the handle itself. -/
def allowValue (value : EHandle) (user : Nat) : EHandle :=
  { value with grants := Principal.ledger :: Principal.addr user :: value.grants }

/-- `_settleRewards(user)` acting on `user`'s account: returns the updated
account and the number of elapsed whole days consumed (the function's
`uint256` return value). `now` is `block.timestamp`. -/
def settleRewards (a : Account) (user : Nat) (now : Nat) : Account × Nat :=
  let lastTimestamp := a.lastAccrualTimestamp
  if lastTimestamp = 0 then
    ({ a with lastAccrualTimestamp := now }, 0)
  else
    let elapsedDays := (now - lastTimestamp) / 86400
    if elapsedDays = 0 then
      (a, 0)
    else
      let stakeAmount := a.stakedBalance
      let daysCount := FHE.asEuint64 elapsedDays
      let accrued := FHE.div (FHE.mul stakeAmount daysCount) 100
      let updatedRewards := FHE.add a.pendingInterest accrued
      ({ a with
          pendingInterest := allowValue updatedRewards user
          lastAccrualTimestamp := lastTimestamp + elapsedDays * 86400 },
        elapsedDays)

/-- Ghost observer: the plaintext interest amount a `_settleRewards` call at
time `now` adds to `pendingInterest` (zero on both no-op branches). Used only
for conservation bookkeeping; it recomputes the `accrued` value of
`settleRewards`. -/
def settleAccrued (a : Account) (now : Nat) : Nat :=
  if a.lastAccrualTimestamp = 0 then 0
  else
    let elapsedDays := (now - a.lastAccrualTimestamp) / 86400
    if elapsedDays = 0 then 0
    else a.stakedBalance.val * (elapsedDays % M64) % M64 / 100

/-- `claimInitial()`: one-time grant of `INITIAL_GRANT` to the caller. -/
def claimInitial (st : LedgerState) (user : Nat) (now : Nat) :
    Except LedgerErr LedgerState :=
  if (st user).hasClaimed then .error .alreadyClaimed
  else
    let grantAmount := FHE.asEuint64 INITIAL_GRANT
    let zeroValue := FHE.asEuint64 0
    .ok (Function.update st user
      { liquidBalance := allowValue grantAmount user
        stakedBalance := allowValue zeroValue user
        pendingInterest := allowValue zeroValue user
        lastAccrualTimestamp := now
        hasClaimed := true })

/-- `stake(encryptedAmount, proof)`: settle rewards, move `amt` from the
liquid to the staked balance, stamp the checkpoint with `now`. -/
def stake (st : LedgerState) (user : Nat) (amt : Nat) (now : Nat) :
    Except LedgerErr LedgerState :=
  if ¬ (st user).hasClaimed then .error .claimRequired
  else
    let a0 := (settleRewards (st user) user now).1
    let amount := FHE.fromExternal amt
    let updatedBalance := FHE.sub a0.liquidBalance amount
    let a1 := { a0 with liquidBalance := allowValue updatedBalance user }
    let updatedStake := FHE.add a1.stakedBalance amount
    let a2 := { a1 with stakedBalance := allowValue updatedStake user }
    .ok (Function.update st user { a2 with lastAccrualTimestamp := now })

/-- `unstake(encryptedAmount, proof)`: settle rewards, move `amt` from the
staked to the liquid balance, stamp the checkpoint with `now`. -/
def unstake (st : LedgerState) (user : Nat) (amt : Nat) (now : Nat) :
    Except LedgerErr LedgerState :=
  if ¬ (st user).hasClaimed then .error .claimRequired
  else
    let a0 := (settleRewards (st user) user now).1
    let amount := FHE.fromExternal amt
    let updatedStake := FHE.sub a0.stakedBalance amount
    let a1 := { a0 with stakedBalance := allowValue updatedStake user }
    let updatedBalance := FHE.add a1.liquidBalance amount
    let a2 := { a1 with liquidBalance := allowValue updatedBalance user }
    .ok (Function.update st user { a2 with lastAccrualTimestamp := now })

/-- `claimInterest()`: settle rewards, realise `pendingInterest` into the
liquid balance, reset `pendingInterest` to an encrypted zero. The second
component is the `daysAccrued` value carried by the `InterestClaimed` event. -/
def claimInterest (st : LedgerState) (user : Nat) (now : Nat) :
    Except LedgerErr (LedgerState × Nat) :=
  if ¬ (st user).hasClaimed then .error .claimRequired
  else
    let settled := settleRewards (st user) user now
    let a0 := settled.1
    let daysAccrued := settled.2
    let rewards := a0.pendingInterest
    let updatedBalance := FHE.add a0.liquidBalance rewards
    let a1 := { a0 with liquidBalance := allowValue updatedBalance user }
    let zeroValue := FHE.asEuint64 0
    let a2 := { a1 with pendingInterest := allowValue zeroValue user }
    .ok (Function.update st user { a2 with lastAccrualTimestamp := now }, daysAccrued)

/-- The four externally callable mutating operations. -/
inductive Op where
  | claimInitialOp : Op
  | stakeOp : Nat → Op
  | unstakeOp : Nat → Op
  | claimInterestOp : Op
deriving DecidableEq

/-- Dispatch an operation (the event payload of `claimInterest` is dropped). -/
def exec (st : LedgerState) (user : Nat) (op : Op) (now : Nat) :
    Except LedgerErr LedgerState :=
  match op with
  | .claimInitialOp => claimInitial st user now
  | .stakeOp amt => stake st user amt now
  | .unstakeOp amt => unstake st user amt now
  | .claimInterestOp => (claimInterest st user now).map (fun r => r.1)

/-- Interest newly accrued for `user` by one operation: the three
settling operations run `_settleRewards` on the caller's account first;
`claimInitial` accrues nothing. -/
def opAccrued (op : Op) (a : Account) (now : Nat) : Nat :=
  match op with
  | .claimInitialOp => 0
  | _ => settleAccrued a now

/-- Reverted-call semantics: a failing operation leaves the state unchanged. -/
def applyOr (st : LedgerState) (r : Except LedgerErr LedgerState) : LedgerState :=
  match r with
  | .ok st2 => st2
  | .error _ => st

/-- States reachable through the public interface, with a ghost map `acc`
recording, per address, the total plaintext interest ever accrued, and the
timestamp `t` of the latest block. Block timestamps are strictly positive
and nondecreasing. -/
inductive Reach : LedgerState → (Nat → Nat) → Nat → Prop where
  | init : Reach (fun _ => Account.initial) (fun _ => 0) 0
  | step {st acc t user op tN stN} :
      Reach st acc t → t ≤ tN → 0 < tN →
      exec st user op tN = .ok stN →
      Reach stN (Function.update acc user (acc user + opAccrued op (st user) tN)) tN

/-- C1: for an account with a nonzero checkpoint, `_settleRewards` computes
`elapsedDays = (now - lastAccrualTimestamp) / 86400`; when zero days elapsed
it is a no-op returning `0`, otherwise it adds
`stakedBalance * elapsedDays / 100` (64-bit unsigned arithmetic) to
`pendingInterest`, advances the checkpoint by `elapsedDays * 86400`, and
returns `elapsedDays`. -/
theorem settleRewards_accrual_spec (a : Account) (user now e : Nat)
    (hlast : a.lastAccrualTimestamp ≠ 0)
    (_hle : a.lastAccrualTimestamp ≤ now)
    (he : e = (now - a.lastAccrualTimestamp) / 86400) :
    (e = 0 → settleRewards a user now = (a, 0)) ∧
    (e ≠ 0 →
      (settleRewards a user now).2 = e ∧
      ((settleRewards a user now).1).pendingInterest.val =
        (a.pendingInterest.val + a.stakedBalance.val * (e % M64) % M64 / 100) % M64 ∧
      ((settleRewards a user now).1).lastAccrualTimestamp =
        a.lastAccrualTimestamp + e * 86400 ∧
      ((settleRewards a user now).1).liquidBalance = a.liquidBalance ∧
      ((settleRewards a user now).1).stakedBalance = a.stakedBalance) := by
  subst he
  constructor
  · intro h0
    simp [settleRewards, hlast, h0]
  · intro hne
    simp [settleRewards, hlast, hne, FHE.add, FHE.mul, FHE.div, FHE.asEuint64, allowValue]

/-- Witness for C1 at a concrete account: checkpoint 100, stake 500,
pending 7, two days plus five seconds later the settlement returns 2 and
pending becomes 17. -/
theorem settleRewards_accrual_spec_witness :
    ((2 : Nat) = 0 → settleRewards ⟨⟨0, []⟩, ⟨500, []⟩, ⟨7, []⟩, 100, true⟩ 3 172905 =
      (⟨⟨0, []⟩, ⟨500, []⟩, ⟨7, []⟩, 100, true⟩, 0)) ∧
    ((2 : Nat) ≠ 0 →
      (settleRewards ⟨⟨0, []⟩, ⟨500, []⟩, ⟨7, []⟩, 100, true⟩ 3 172905).2 = 2 ∧
      ((settleRewards ⟨⟨0, []⟩, ⟨500, []⟩, ⟨7, []⟩, 100, true⟩ 3 172905).1).pendingInterest.val =
        (7 + 500 * (2 % M64) % M64 / 100) % M64 ∧
      ((settleRewards ⟨⟨0, []⟩, ⟨500, []⟩, ⟨7, []⟩, 100, true⟩ 3 172905).1).lastAccrualTimestamp =
        100 + 2 * 86400 ∧
      ((settleRewards ⟨⟨0, []⟩, ⟨500, []⟩, ⟨7, []⟩, 100, true⟩ 3 172905).1).liquidBalance = ⟨0, []⟩ ∧
      ((settleRewards ⟨⟨0, []⟩, ⟨500, []⟩, ⟨7, []⟩, 100, true⟩ 3 172905).1).stakedBalance = ⟨500, []⟩) :=
  settleRewards_accrual_spec ⟨⟨0, []⟩, ⟨500, []⟩, ⟨7, []⟩, 100, true⟩ 3 172905 2
    (by decide) (by decide) (by decide)

/-- C4: for an account that has not claimed, `claimInitial` succeeds; the
caller's liquid balance decrypts to `INITIAL_GRANT = 1000`, the staked and
pending balances to `0`, `hasClaimed` becomes true, the checkpoint is set to
the current time, and `getInitialGrant` returns `1000`. -/
theorem claimInitial_grant_spec (st : LedgerState) (user now : Nat)
    (h : (st user).hasClaimed = false) :
    ∃ stN, claimInitial st user now = .ok stN ∧
      (stN user).liquidBalance.val = 1000 ∧
      (stN user).stakedBalance.val = 0 ∧
      (stN user).pendingInterest.val = 0 ∧
      (stN user).hasClaimed = true ∧
      (stN user).lastAccrualTimestamp = now ∧
      getInitialGrant = 1000 := by
  refine ⟨Function.update st user
      { liquidBalance := allowValue (FHE.asEuint64 INITIAL_GRANT) user
        stakedBalance := allowValue (FHE.asEuint64 0) user
        pendingInterest := allowValue (FHE.asEuint64 0) user
        lastAccrualTimestamp := now
        hasClaimed := true }, ?_, ?_, ?_, ?_, ?_, ?_, rfl⟩
  · simp [claimInitial, h]
  all_goals
    simp [Function.update_same, allowValue, FHE.asEuint64, INITIAL_GRANT, M64]

/-- Witness for C4: a fresh address claiming at time 1. -/
theorem claimInitial_grant_spec_witness :
    ∃ stN, claimInitial (fun _ => Account.initial) 7 1 = .ok stN ∧
      (stN 7).liquidBalance.val = 1000 ∧
      (stN 7).stakedBalance.val = 0 ∧
      (stN 7).pendingInterest.val = 0 ∧
      (stN 7).hasClaimed = true ∧
      (stN 7).lastAccrualTimestamp = 1 ∧
      getInitialGrant = 1000 :=
  claimInitial_grant_spec (fun _ => Account.initial) 7 1 (by decide)

/-! ## Structural lemmas about `settleRewards` -/

theorem settleRewards_liquid (a : Account) (user now : Nat) :
    ((settleRewards a user now).1).liquidBalance = a.liquidBalance := by
  unfold settleRewards
  by_cases h0 : a.lastAccrualTimestamp = 0 <;> simp [h0] <;>
    by_cases h1 : (now - a.lastAccrualTimestamp) / 86400 = 0 <;> simp [h1]

theorem settleRewards_staked (a : Account) (user now : Nat) :
    ((settleRewards a user now).1).stakedBalance = a.stakedBalance := by
  unfold settleRewards
  by_cases h0 : a.lastAccrualTimestamp = 0 <;> simp [h0] <;>
    by_cases h1 : (now - a.lastAccrualTimestamp) / 86400 = 0 <;> simp [h1]

theorem settleRewards_claimed (a : Account) (user now : Nat) :
    ((settleRewards a user now).1).hasClaimed = a.hasClaimed := by
  unfold settleRewards
  by_cases h0 : a.lastAccrualTimestamp = 0 <;> simp [h0] <;>
    by_cases h1 : (now - a.lastAccrualTimestamp) / 86400 = 0 <;> simp [h1]

theorem settleRewards_pending_val (a : Account) (user now : Nat)
    (hp : a.pendingInterest.val < M64) :
    ((settleRewards a user now).1).pendingInterest.val =
      (a.pendingInterest.val + settleAccrued a now) % M64 := by
  unfold settleRewards settleAccrued
  by_cases h0 : a.lastAccrualTimestamp = 0
  · simp [h0, Nat.mod_eq_of_lt hp]
  · by_cases h1 : (now - a.lastAccrualTimestamp) / 86400 = 0
    · simp [h0, h1, Nat.mod_eq_of_lt hp]
    · simp [h0, h1, allowValue, FHE.add, FHE.mul, FHE.div, FHE.asEuint64]

theorem settleRewards_pending_lt (a : Account) (user now : Nat)
    (hp : a.pendingInterest.val < M64) :
    ((settleRewards a user now).1).pendingInterest.val < M64 := by
  unfold settleRewards
  by_cases h0 : a.lastAccrualTimestamp = 0
  · simpa [h0] using hp
  · by_cases h1 : (now - a.lastAccrualTimestamp) / 86400 = 0
    · simpa [h0, h1] using hp
    · simp [h0, h1, allowValue, FHE.add, FHE.mul, FHE.div, FHE.asEuint64]
      exact Nat.mod_lt _ (by norm_num [M64])

theorem settleRewards_last_le (a : Account) (user now : Nat)
    (h : a.lastAccrualTimestamp ≤ now) :
    ((settleRewards a user now).1).lastAccrualTimestamp ≤ now := by
  unfold settleRewards
  by_cases h0 : a.lastAccrualTimestamp = 0
  · simp [h0]
  · by_cases h1 : (now - a.lastAccrualTimestamp) / 86400 = 0
    · simpa [h0, h1] using h
    · simp [h0, h1]
      omega

theorem settleRewards_last_mono (a : Account) (user now : Nat) :
    a.lastAccrualTimestamp ≤ ((settleRewards a user now).1).lastAccrualTimestamp := by
  unfold settleRewards
  by_cases h0 : a.lastAccrualTimestamp = 0
  · simp [h0]
  · by_cases h1 : (now - a.lastAccrualTimestamp) / 86400 = 0
    · simp [h0, h1]
    · simp [h0, h1]

theorem settleRewards_noop_of_subday (a : Account) (user now : Nat)
    (hlast : a.lastAccrualTimestamp ≠ 0)
    (hsub : now < a.lastAccrualTimestamp + 86400) :
    settleRewards a user now = (a, 0) := by
  have h1 : (now - a.lastAccrualTimestamp) / 86400 = 0 :=
    Nat.div_eq_of_lt (by omega)
  simp [settleRewards, hlast, h1]

/-! ## Decrypt-grant bookkeeping -/

/-- The handle's ACL authorizes exactly the ledger and the owner. -/
def grantedExactly (h : EHandle) (user : Nat) : Prop :=
  ∀ p, p ∈ h.grants ↔ (p = Principal.ledger ∨ p = Principal.addr user)

theorem grantedExactly_allow_fresh (v : Nat) (user : Nat) :
    grantedExactly (allowValue ⟨v, []⟩ user) user := by
  intro p
  simp [allowValue]

theorem settleRewards_pending_grants (a : Account) (user now : Nat)
    (hg : grantedExactly a.pendingInterest user) :
    grantedExactly ((settleRewards a user now).1).pendingInterest user := by
  unfold settleRewards
  by_cases h0 : a.lastAccrualTimestamp = 0
  · simpa [h0] using hg
  · by_cases h1 : (now - a.lastAccrualTimestamp) / 86400 = 0
    · simpa [h0, h1] using hg
    · have hfresh := grantedExactly_allow_fresh
        ((a.pendingInterest.val +
          a.stakedBalance.val * ((now - a.lastAccrualTimestamp) / 86400 % M64) % M64 / 100) % M64)
        user
      simpa [h0, h1, FHE.add, FHE.mul, FHE.div, FHE.asEuint64] using hfresh

/-! ## 64-bit wraparound cancellation -/

theorem u64_sub_add_cancel (l a : Nat) (hl : l < M64) :
    ((l + (M64 - a % M64)) % M64 + a % M64) % M64 = l := by
  unfold M64 at *
  omega

theorem u64_add_sub_cancel (s a : Nat) (hs : s < M64) :
    ((s + a % M64) % M64 + (M64 - a % M64)) % M64 = s := by
  unfold M64 at *
  omega

/-! ## Reduction lemmas for the public operations -/

theorem claimInitial_already (st : LedgerState) (user now : Nat)
    (h : (st user).hasClaimed = true) :
    claimInitial st user now = .error .alreadyClaimed := by
  simp [claimInitial, h]

theorem stake_requires_claim (st : LedgerState) (user amt now : Nat)
    (h : (st user).hasClaimed = false) :
    stake st user amt now = .error .claimRequired := by
  simp [stake, h]

theorem unstake_requires_claim (st : LedgerState) (user amt now : Nat)
    (h : (st user).hasClaimed = false) :
    unstake st user amt now = .error .claimRequired := by
  simp [unstake, h]

theorem claimInterest_requires_claim (st : LedgerState) (user now : Nat)
    (h : (st user).hasClaimed = false) :
    claimInterest st user now = .error .claimRequired := by
  simp [claimInterest, h]

theorem stake_eq (st : LedgerState) (user amt now : Nat)
    (h : (st user).hasClaimed = true) :
    stake st user amt now = .ok (Function.update st user
      { liquidBalance := allowValue
          (FHE.sub ((settleRewards (st user) user now).1).liquidBalance (FHE.fromExternal amt)) user
        stakedBalance := allowValue
          (FHE.add ((settleRewards (st user) user now).1).stakedBalance (FHE.fromExternal amt)) user
        pendingInterest := ((settleRewards (st user) user now).1).pendingInterest
        lastAccrualTimestamp := now
        hasClaimed := ((settleRewards (st user) user now).1).hasClaimed }) := by
  simp [stake, h]

theorem unstake_eq (st : LedgerState) (user amt now : Nat)
    (h : (st user).hasClaimed = true) :
    unstake st user amt now = .ok (Function.update st user
      { liquidBalance := allowValue
          (FHE.add ((settleRewards (st user) user now).1).liquidBalance (FHE.fromExternal amt)) user
        stakedBalance := allowValue
          (FHE.sub ((settleRewards (st user) user now).1).stakedBalance (FHE.fromExternal amt)) user
        pendingInterest := ((settleRewards (st user) user now).1).pendingInterest
        lastAccrualTimestamp := now
        hasClaimed := ((settleRewards (st user) user now).1).hasClaimed }) := by
  simp [unstake, h]

theorem claimInterest_eq (st : LedgerState) (user now : Nat)
    (h : (st user).hasClaimed = true) :
    claimInterest st user now = .ok (Function.update st user
      { liquidBalance := allowValue
          (FHE.add ((settleRewards (st user) user now).1).liquidBalance
            ((settleRewards (st user) user now).1).pendingInterest) user
        stakedBalance := ((settleRewards (st user) user now).1).stakedBalance
        pendingInterest := allowValue (FHE.asEuint64 0) user
        lastAccrualTimestamp := now
        hasClaimed := ((settleRewards (st user) user now).1).hasClaimed },
      (settleRewards (st user) user now).2) := by
  simp [claimInterest, h]

/-! ## Demonstration states for concrete instantiations -/

/-- A ledger in which no account has claimed yet. -/
def demoEmpty : LedgerState := fun _ => Account.initial

/-- Ledger after address `7` claimed its initial grant at time `1`. -/
def demoClaimed : LedgerState := applyOr demoEmpty (claimInitial demoEmpty 7 1)

/-- C6: round-trip law — from a claimed state, staking `amt` and then
unstaking `amt` (with `amt` at most the current liquid balance) restores the
plaintext liquid and staked balances to their pre-stake values. -/
theorem stake_unstake_roundtrip (st : LedgerState) (user amt now : Nat)
    (hclaimed : (st user).hasClaimed = true)
    (hliq : (st user).liquidBalance.val < M64)
    (hstk : (st user).stakedBalance.val < M64)
    (_hamt : amt ≤ (st user).liquidBalance.val) :
    ∃ st1 st2,
      stake st user amt now = .ok st1 ∧
      unstake st1 user amt now = .ok st2 ∧
      (st2 user).liquidBalance.val = (st user).liquidBalance.val ∧
      (st2 user).stakedBalance.val = (st user).stakedBalance.val := by
  have h1 := stake_eq st user amt now hclaimed
  have hmid : ((Function.update st user
      { liquidBalance := allowValue
          (FHE.sub ((settleRewards (st user) user now).1).liquidBalance (FHE.fromExternal amt)) user
        stakedBalance := allowValue
          (FHE.add ((settleRewards (st user) user now).1).stakedBalance (FHE.fromExternal amt)) user
        pendingInterest := ((settleRewards (st user) user now).1).pendingInterest
        lastAccrualTimestamp := now
        hasClaimed := ((settleRewards (st user) user now).1).hasClaimed }) user).hasClaimed = true := by
    simp [Function.update_same, settleRewards_claimed, hclaimed]
  refine ⟨_, _, h1, unstake_eq _ user amt now hmid, ?_, ?_⟩
  · simp only [Function.update_same, settleRewards_liquid, settleRewards_staked,
      allowValue, FHE.add, FHE.sub, FHE.fromExternal]
    simp only [M64] at hliq ⊢
    omega
  · simp only [Function.update_same, settleRewards_liquid, settleRewards_staked,
      allowValue, FHE.add, FHE.sub, FHE.fromExternal]
    simp only [M64] at hstk ⊢
    omega

/-- Witness for C6: address 7 stakes 250 out of its grant of 1000 at time 2
and unstakes 250 again; both balances return to their previous values. -/
theorem stake_unstake_roundtrip_witness :
    ∃ st1 st2,
      stake demoClaimed 7 250 2 = .ok st1 ∧
      unstake st1 7 250 2 = .ok st2 ∧
      (st2 7).liquidBalance.val = (demoClaimed 7).liquidBalance.val ∧
      (st2 7).stakedBalance.val = (demoClaimed 7).stakedBalance.val :=
  stake_unstake_roundtrip demoClaimed 7 250 2 (by decide) (by decide) (by decide) (by decide)

/-- C7: precondition failures are atomic — `claimInitial` on an account that
already claimed fails with `AlreadyClaimed`, and `stake`, `unstake`,
`claimInterest` on an account that never claimed fail with `ClaimRequired`;
in each case the reverted call leaves the whole ledger state unchanged. -/
theorem precondition_errors_atomic (st : LedgerState) (user amt now : Nat) :
    ((st user).hasClaimed = true →
      claimInitial st user now = .error .alreadyClaimed ∧
      applyOr st (claimInitial st user now) = st) ∧
    ((st user).hasClaimed = false →
      stake st user amt now = .error .claimRequired ∧
      unstake st user amt now = .error .claimRequired ∧
      claimInterest st user now = .error .claimRequired ∧
      applyOr st (stake st user amt now) = st ∧
      applyOr st (unstake st user amt now) = st ∧
      applyOr st (exec st user .claimInterestOp now) = st) := by
  constructor
  · intro h
    have hc := claimInitial_already st user now h
    exact ⟨hc, by simp [applyOr, hc]⟩
  · intro h
    have h1 := stake_requires_claim st user amt now h
    have h2 := unstake_requires_claim st user amt now h
    have h3 := claimInterest_requires_claim st user now h
    exact ⟨h1, h2, h3, by simp [applyOr, h1], by simp [applyOr, h2],
      by simp [applyOr, exec, h3, Except.map]⟩

/-- Witness for C7: a second `claimInitial` by address 7 fails with
`AlreadyClaimed`, and the three settling operations fail with
`ClaimRequired` on the fresh ledger; the state is untouched each time. -/
theorem precondition_errors_atomic_witness :
    (claimInitial demoClaimed 7 5 = .error .alreadyClaimed ∧
      applyOr demoClaimed (claimInitial demoClaimed 7 5) = demoClaimed) ∧
    (stake demoEmpty 7 3 5 = .error .claimRequired ∧
      unstake demoEmpty 7 3 5 = .error .claimRequired ∧
      claimInterest demoEmpty 7 5 = .error .claimRequired ∧
      applyOr demoEmpty (stake demoEmpty 7 3 5) = demoEmpty ∧
      applyOr demoEmpty (unstake demoEmpty 7 3 5) = demoEmpty ∧
      applyOr demoEmpty (exec demoEmpty 7 .claimInterestOp 5) = demoEmpty) :=
  ⟨(precondition_errors_atomic demoClaimed 7 3 5).1 (by decide),
    (precondition_errors_atomic demoEmpty 7 3 5).2 (by decide)⟩

/-- C8: no insufficient-funds check exists — on a claimed account `stake`
and `unstake` succeed for every amount, including amounts exceeding the
respective balance, and the subtracted balance takes the value
`(old - amount) mod 2^64` of wrapping 64-bit unsigned arithmetic. -/
theorem no_underflow_error (st : LedgerState) (user amt now : Nat)
    (hclaimed : (st user).hasClaimed = true) :
    ∃ st1 st2,
      stake st user amt now = .ok st1 ∧
      ((st1 user).liquidBalance.val : ℤ) =
        (((st user).liquidBalance.val : ℤ) - (amt : ℤ)) % (M64 : ℤ) ∧
      unstake st user amt now = .ok st2 ∧
      ((st2 user).stakedBalance.val : ℤ) =
        (((st user).stakedBalance.val : ℤ) - (amt : ℤ)) % (M64 : ℤ) := by
  refine ⟨_, _, stake_eq st user amt now hclaimed, ?_,
    unstake_eq st user amt now hclaimed, ?_⟩
  · simp only [Function.update_same, settleRewards_liquid, allowValue,
      FHE.sub, FHE.fromExternal]
    simp only [M64]
    omega
  · simp only [Function.update_same, settleRewards_staked, allowValue,
      FHE.sub, FHE.fromExternal]
    simp only [M64]
    omega

/-- Witness for C8: address 7 holds 1000 liquid and 0 staked; staking 1500
wraps the liquid balance to `2^64 - 500`, and unstaking 1500 wraps the staked
balance to `2^64 - 1500`. -/
theorem no_underflow_error_witness :
    ∃ st1 st2,
      stake demoClaimed 7 1500 2 = .ok st1 ∧
      ((st1 7).liquidBalance.val : ℤ) =
        (((demoClaimed 7).liquidBalance.val : ℤ) - (1500 : ℤ)) % (M64 : ℤ) ∧
      unstake demoClaimed 7 1500 2 = .ok st2 ∧
      ((st2 7).stakedBalance.val : ℤ) =
        (((demoClaimed 7).stakedBalance.val : ℤ) - (1500 : ℤ)) % (M64 : ℤ) :=
  no_underflow_error demoClaimed 7 1500 2 (by decide)

/-- `_settleRewards` with a nonzero checkpoint and zero elapsed whole days
is the identity. -/
theorem settleRewards_noop_eq (a : Account) (user now : Nat)
    (hlast : a.lastAccrualTimestamp ≠ 0)
    (h0 : (now - a.lastAccrualTimestamp) / 86400 = 0) :
    settleRewards a user now = (a, 0) := by
  simp [settleRewards, hlast, h0]

/-- `_settleRewards` on the accrual branch, fully evaluated. -/
theorem settleRewards_accrual_eq (a : Account) (user now : Nat)
    (hlast : a.lastAccrualTimestamp ≠ 0)
    (hne : (now - a.lastAccrualTimestamp) / 86400 ≠ 0) :
    settleRewards a user now =
      ({ a with
          pendingInterest := allowValue (FHE.add a.pendingInterest
            (FHE.div (FHE.mul a.stakedBalance
              (FHE.asEuint64 ((now - a.lastAccrualTimestamp) / 86400))) 100)) user
          lastAccrualTimestamp := a.lastAccrualTimestamp +
            (now - a.lastAccrualTimestamp) / 86400 * 86400 },
        (now - a.lastAccrualTimestamp) / 86400) := by
  simp [settleRewards, hlast, hne]

/-- C2: on a claimed account with staked balance `S` and zero pending
interest, calling `claimInterest` exactly `D` full days (plus a sub-day
remainder `r`) after the checkpoint adds `S * D / 100` to the liquid
balance, resets pending interest to zero, and the `InterestClaimed` event
carries the elapsed-day count `D`, not the interest amount. -/
theorem claimInterest_after_days (st : LedgerState) (user now last S D r : Nat)
    (hclaimed : (st user).hasClaimed = true)
    (hlast : (st user).lastAccrualTimestamp = last) (hl0 : last ≠ 0)
    (hS : (st user).stakedBalance.val = S)
    (hp : (st user).pendingInterest.val = 0)
    (hnow : now = last + D * 86400 + r) (hr : r < 86400) (hD : 1 ≤ D)
    (hDm : D < M64)
    (hno : S * D < M64)
    (hliq : (st user).liquidBalance.val + S * D / 100 < M64) :
    ∃ stN, claimInterest st user now = .ok (stN, D) ∧
      (stN user).liquidBalance.val = (st user).liquidBalance.val + S * D / 100 ∧
      (stN user).pendingInterest.val = 0 := by
  subst hS
  have he : (now - (st user).lastAccrualTimestamp) / 86400 = D := by
    rw [hlast, hnow]
    omega
  have hne : (now - (st user).lastAccrualTimestamp) / 86400 ≠ 0 := by
    rw [he]; omega
  have hsett := settleRewards_accrual_eq (st user) user now (by rw [hlast]; exact hl0) hne
  rw [he] at hsett
  have hok := claimInterest_eq st user now hclaimed
  rw [hsett] at hok
  refine ⟨_, hok, ?_, ?_⟩
  · simp only [Function.update_same, allowValue, FHE.add, FHE.mul, FHE.div, FHE.asEuint64, hp]
    have hd : D % M64 = D := Nat.mod_eq_of_lt hDm
    rw [hd]
    generalize hq : (st user).stakedBalance.val * D = q at hno hliq ⊢
    simp only [M64] at hno hliq ⊢
    omega
  · simp [Function.update_same, allowValue, FHE.asEuint64]

/-- Ledger after address `7` additionally staked 500 at time `2`. -/
def demoStaked : LedgerState := applyOr demoClaimed (stake demoClaimed 7 500 2)

/-- Witness for C2, the spec's own scenario: 500 staked, three full days
later `claimInterest` pays out `500 * 3 / 100 = 15` and reports 3 days. -/
theorem claimInterest_after_days_witness :
    ∃ stN, claimInterest demoStaked 7 259202 = .ok (stN, 3) ∧
      (stN 7).liquidBalance.val = (demoStaked 7).liquidBalance.val + 500 * 3 / 100 ∧
      (stN 7).pendingInterest.val = 0 :=
  claimInterest_after_days demoStaked 7 259202 2 500 3 0 (by decide) (by decide)
    (by decide) (by decide) (by decide) (by decide) (by decide) (by decide)
    (by decide) (by decide) (by decide)

/-! ## The reachability invariant -/

/-- Invariant of the account stored at address `user`: plaintext values are
64-bit, the checkpoint never exceeds the latest block time, the claimed flag
mirrors a nonzero checkpoint, the ghost accrual total is zero before the
claim, and for a claimed account the bucket sum equals the initial grant
plus all interest ever accrued (mod `2^64`) while every stored handle is
granted to exactly the ledger and the owner. -/
def AccountInv (user : Nat) (a : Account) (accU : Nat) (t : Nat) : Prop :=
  a.liquidBalance.val < M64 ∧
  a.stakedBalance.val < M64 ∧
  a.pendingInterest.val < M64 ∧
  a.lastAccrualTimestamp ≤ t ∧
  (a.hasClaimed = true ↔ 0 < a.lastAccrualTimestamp) ∧
  (a.hasClaimed = false → accU = 0) ∧
  (a.hasClaimed = true →
    (a.liquidBalance.val + a.stakedBalance.val + a.pendingInterest.val) % M64 =
      (INITIAL_GRANT + accU) % M64 ∧
    grantedExactly a.liquidBalance user ∧
    grantedExactly a.stakedBalance user ∧
    grantedExactly a.pendingInterest user)

/-- Ledger-wide invariant. -/
def LedgerInv (st : LedgerState) (acc : Nat → Nat) (t : Nat) : Prop :=
  ∀ u, AccountInv u (st u) (acc u) t

theorem AccountInv.mono {user : Nat} {a : Account} {accU t tN : Nat}
    (h : AccountInv user a accU t) (hle : t ≤ tN) : AccountInv user a accU tN := by
  obtain ⟨h1, h2, h3, h4, h5, h6, h7⟩ := h
  exact ⟨h1, h2, h3, le_trans h4 hle, h5, h6, h7⟩

theorem inv_step_claimInitial (st stN : LedgerState) (acc : Nat → Nat)
    (t user tN : Nat)
    (hinv : LedgerInv st acc t) (htle : t ≤ tN) (htpos : 0 < tN)
    (hexec : claimInitial st user tN = .ok stN) :
    LedgerInv stN (Function.update acc user
      (acc user + opAccrued .claimInitialOp (st user) tN)) tN := by
  by_cases hc : (st user).hasClaimed = true
  · rw [claimInitial_already st user tN hc] at hexec
    exact absurd hexec (by simp)
  · have hcf : (st user).hasClaimed = false := by simpa using hc
    have hacc0 : acc user = 0 := ((hinv user).2.2.2.2.2.1) hcf
    simp only [claimInitial, hcf, Bool.false_eq_true, if_false, Except.ok.injEq] at hexec
    subst hexec
    intro v
    by_cases hv : v = user
    · subst hv
      refine ⟨?_, ?_, ?_, ?_, ?_, ?_, ?_⟩ <;>
        simp [Function.update_same, opAccrued, allowValue, FHE.asEuint64,
          INITIAL_GRANT, M64, htpos, hacc0, grantedExactly]
    · simp only [Function.update_noteq hv]
      exact (hinv v).mono htle
/-- Conservation transfer: moving `aa` from the first to the second bucket
(64-bit wrapping sub and add) and adding `sA` to the third preserves the
bucket sum modulo `2^64`, shifted by the accrued amount. -/
theorem conservation_step (l s p aa sA g : Nat)
    (haa : aa ≤ M64)
    (hcons : (l + s + p) % M64 = g % M64) :
    ((l + (M64 - aa)) % M64 + (s + aa) % M64 + (p + sA) % M64) % M64
      = (g + sA) % M64 := by
  have heq : l + (M64 - aa) + (s + aa) + (p + sA) = l + s + p + sA + M64 := by
    omega
  calc ((l + (M64 - aa)) % M64 + (s + aa) % M64 + (p + sA) % M64) % M64
      = (l + (M64 - aa) + (s + aa) + (p + sA)) % M64 :=
        ((Nat.mod_modEq _ _).add (Nat.mod_modEq _ _)).add (Nat.mod_modEq _ _)
    _ = (l + s + p + sA + M64) % M64 := by rw [heq]
    _ = (l + s + p + sA) % M64 := Nat.add_mod_right _ _
    _ = (g + sA) % M64 := Nat.ModEq.add_right sA hcons

/-- Conservation transfer in the opposite direction (unstake). -/
theorem conservation_step2 (l s p aa sA g : Nat)
    (haa : aa ≤ M64)
    (hcons : (l + s + p) % M64 = g % M64) :
    ((l + aa) % M64 + (s + (M64 - aa)) % M64 + (p + sA) % M64) % M64
      = (g + sA) % M64 := by
  have heq : l + aa + (s + (M64 - aa)) + (p + sA) = l + s + p + sA + M64 := by
    omega
  calc ((l + aa) % M64 + (s + (M64 - aa)) % M64 + (p + sA) % M64) % M64
      = (l + aa + (s + (M64 - aa)) + (p + sA)) % M64 :=
        ((Nat.mod_modEq _ _).add (Nat.mod_modEq _ _)).add (Nat.mod_modEq _ _)
    _ = (l + s + p + sA + M64) % M64 := by rw [heq]
    _ = (l + s + p + sA) % M64 := Nat.add_mod_right _ _
    _ = (g + sA) % M64 := Nat.ModEq.add_right sA hcons

/-- Conservation transfer for realising pending interest into the liquid
bucket and resetting it to zero. -/
theorem conservation_claim (l s p sA g : Nat)
    (hcons : (l + s + p) % M64 = g % M64) :
    ((l + (p + sA) % M64) % M64 + s) % M64 = (g + sA) % M64 := by
  calc ((l + (p + sA) % M64) % M64 + s) % M64
      = (l + (p + sA) % M64 + s) % M64 := Nat.mod_add_mod _ _ _
    _ = (l + s + (p + sA) % M64) % M64 := by rw [Nat.add_right_comm]
    _ = (l + s + (p + sA)) % M64 := Nat.add_mod_mod _ _ _
    _ = (l + s + p + sA) % M64 := by rw [← Nat.add_assoc]
    _ = ((l + s + p) % M64 + sA) % M64 := (Nat.mod_add_mod _ _ _).symm
    _ = (g % M64 + sA) % M64 := by rw [hcons]
    _ = (g + sA) % M64 := Nat.mod_add_mod _ _ _

theorem inv_step_stake (st stN : LedgerState) (acc : Nat → Nat)
    (t user amt tN : Nat)
    (hinv : LedgerInv st acc t) (htle : t ≤ tN) (htpos : 0 < tN)
    (hexec : stake st user amt tN = .ok stN) :
    LedgerInv stN (Function.update acc user
      (acc user + opAccrued (.stakeOp amt) (st user) tN)) tN := by
  by_cases hc : (st user).hasClaimed = true
  case neg =>
    have hcf : (st user).hasClaimed = false := by simpa using hc
    rw [stake_requires_claim st user amt tN hcf] at hexec
    exact absurd hexec (by simp)
  case pos =>
  obtain ⟨hl, hs, hp, hlt, hiff, hacc0, hclaims⟩ := hinv user
  obtain ⟨hcons, hgl, hgs, hgp⟩ := hclaims hc
  rw [stake_eq st user amt tN hc] at hexec
  simp only [Except.ok.injEq] at hexec
  subst hexec
  intro v
  by_cases hv : v = user
  case neg =>
    simp only [Function.update_noteq hv]
    exact (hinv v).mono htle
  case pos =>
  subst hv
  simp only [Function.update_same]
  refine ⟨?_, ?_, ?_, le_refl tN, ?_, ?_, ?_⟩
  · simp only [allowValue, FHE.sub, FHE.fromExternal]
    exact Nat.mod_lt _ (by norm_num [M64])
  · simp only [allowValue, FHE.add, FHE.fromExternal]
    exact Nat.mod_lt _ (by norm_num [M64])
  · exact settleRewards_pending_lt (st v) v tN hp
  · simp [settleRewards_claimed, hc, htpos]
  · simp [settleRewards_claimed, hc]
  · intro _
    refine ⟨?_, ?_, ?_, ?_⟩
    · simp only [allowValue, FHE.sub, FHE.add, FHE.fromExternal,
        settleRewards_liquid, settleRewards_staked, opAccrued]
      rw [settleRewards_pending_val (st v) v tN hp,
        Nat.mod_mod_of_dvd amt dvd_rfl]
      simp only [INITIAL_GRANT] at hcons ⊢
      conv_rhs => rw [← Nat.add_assoc]
      exact conservation_step _ _ _ _ _ _
        (Nat.le_of_lt (Nat.mod_lt _ (by norm_num [M64]))) hcons
    · simp only [allowValue, FHE.sub, FHE.fromExternal]
      exact grantedExactly_allow_fresh _ v
    · simp only [allowValue, FHE.add, FHE.fromExternal]
      exact grantedExactly_allow_fresh _ v
    · exact settleRewards_pending_grants (st v) v tN hgp

theorem inv_step_unstake (st stN : LedgerState) (acc : Nat → Nat)
    (t user amt tN : Nat)
    (hinv : LedgerInv st acc t) (htle : t ≤ tN) (htpos : 0 < tN)
    (hexec : unstake st user amt tN = .ok stN) :
    LedgerInv stN (Function.update acc user
      (acc user + opAccrued (.unstakeOp amt) (st user) tN)) tN := by
  by_cases hc : (st user).hasClaimed = true
  case neg =>
    have hcf : (st user).hasClaimed = false := by simpa using hc
    rw [unstake_requires_claim st user amt tN hcf] at hexec
    exact absurd hexec (by simp)
  case pos =>
  obtain ⟨hl, hs, hp, hlt, hiff, hacc0, hclaims⟩ := hinv user
  obtain ⟨hcons, hgl, hgs, hgp⟩ := hclaims hc
  rw [unstake_eq st user amt tN hc] at hexec
  simp only [Except.ok.injEq] at hexec
  subst hexec
  intro v
  by_cases hv : v = user
  case neg =>
    simp only [Function.update_noteq hv]
    exact (hinv v).mono htle
  case pos =>
  subst hv
  simp only [Function.update_same]
  refine ⟨?_, ?_, ?_, le_refl tN, ?_, ?_, ?_⟩
  · simp only [allowValue, FHE.add, FHE.fromExternal]
    exact Nat.mod_lt _ (by norm_num [M64])
  · simp only [allowValue, FHE.sub, FHE.fromExternal]
    exact Nat.mod_lt _ (by norm_num [M64])
  · exact settleRewards_pending_lt (st v) v tN hp
  · simp [settleRewards_claimed, hc, htpos]
  · simp [settleRewards_claimed, hc]
  · intro _
    refine ⟨?_, ?_, ?_, ?_⟩
    · simp only [allowValue, FHE.sub, FHE.add, FHE.fromExternal,
        settleRewards_liquid, settleRewards_staked, opAccrued]
      rw [settleRewards_pending_val (st v) v tN hp,
        Nat.mod_mod_of_dvd amt dvd_rfl]
      simp only [INITIAL_GRANT] at hcons ⊢
      conv_rhs => rw [← Nat.add_assoc]
      exact conservation_step2 _ _ _ _ _ _
        (Nat.le_of_lt (Nat.mod_lt _ (by norm_num [M64]))) hcons
    · simp only [allowValue, FHE.add, FHE.fromExternal]
      exact grantedExactly_allow_fresh _ v
    · simp only [allowValue, FHE.sub, FHE.fromExternal]
      exact grantedExactly_allow_fresh _ v
    · exact settleRewards_pending_grants (st v) v tN hgp

theorem inv_step_claimInterest (st stN : LedgerState) (acc : Nat → Nat)
    (t user tN d : Nat)
    (hinv : LedgerInv st acc t) (htle : t ≤ tN) (htpos : 0 < tN)
    (hexec : claimInterest st user tN = .ok (stN, d)) :
    LedgerInv stN (Function.update acc user
      (acc user + opAccrued .claimInterestOp (st user) tN)) tN := by
  by_cases hc : (st user).hasClaimed = true
  case neg =>
    have hcf : (st user).hasClaimed = false := by simpa using hc
    rw [claimInterest_requires_claim st user tN hcf] at hexec
    exact absurd hexec (by simp)
  case pos =>
  obtain ⟨hl, hs, hp, hlt, hiff, hacc0, hclaims⟩ := hinv user
  obtain ⟨hcons, hgl, hgs, hgp⟩ := hclaims hc
  rw [claimInterest_eq st user tN hc] at hexec
  simp only [Except.ok.injEq, Prod.mk.injEq] at hexec
  obtain ⟨hexec1, hd⟩ := hexec
  subst hexec1
  intro v
  by_cases hv : v = user
  case neg =>
    simp only [Function.update_noteq hv]
    exact (hinv v).mono htle
  case pos =>
  subst hv
  simp only [Function.update_same]
  refine ⟨?_, ?_, ?_, le_refl tN, ?_, ?_, ?_⟩
  · simp only [allowValue, FHE.add]
    exact Nat.mod_lt _ (by norm_num [M64])
  · simp only [settleRewards_staked]
    exact hs
  · simp only [allowValue, FHE.asEuint64]
    exact Nat.mod_lt _ (by norm_num [M64])
  · simp [settleRewards_claimed, hc, htpos]
  · simp [settleRewards_claimed, hc]
  · intro _
    refine ⟨?_, ?_, ?_, ?_⟩
    · simp only [allowValue, FHE.add, FHE.asEuint64, Nat.zero_mod, Nat.add_zero,
        settleRewards_liquid, settleRewards_staked, opAccrued]
      rw [settleRewards_pending_val (st v) v tN hp]
      simp only [INITIAL_GRANT] at hcons ⊢
      conv_rhs => rw [← Nat.add_assoc]
      exact conservation_claim _ _ _ _ _ hcons
    · simp only [allowValue, FHE.add]
      exact grantedExactly_allow_fresh _ v
    · simp only [settleRewards_staked]
      exact hgs
    · simp only [allowValue, FHE.asEuint64]
      exact grantedExactly_allow_fresh _ v

/-- Every reachable ledger state satisfies the invariant. -/
theorem reach_inv (st : LedgerState) (acc : Nat → Nat) (t : Nat)
    (h : Reach st acc t) : LedgerInv st acc t := by
  induction h with
  | init =>
      intro u
      refine ⟨?_, ?_, ?_, ?_, ?_, ?_, ?_⟩ <;>
        simp [Account.initial, M64]
  | step hr hle hpos hexec ih =>
      rename_i st acc t user op tN stN
      cases op with
      | claimInitialOp => exact inv_step_claimInitial st stN acc t user tN ih hle hpos hexec
      | stakeOp amt => exact inv_step_stake st stN acc t user amt tN ih hle hpos hexec
      | unstakeOp amt => exact inv_step_unstake st stN acc t user amt tN ih hle hpos hexec
      | claimInterestOp =>
          simp only [exec] at hexec
          cases hci : claimInterest st user tN with
          | error e => rw [hci] at hexec; exact absurd hexec (by simp [Except.map])
          | ok r =>
              rw [hci] at hexec
              simp only [Except.map, Except.ok.injEq] at hexec
              subst hexec
              exact inv_step_claimInterest st r.1 acc t user tN r.2 ih hle hpos (by rw [hci])

/-- Ghost accrual map after the demonstration claim step. -/
def demoAcc : Nat → Nat :=
  Function.update (fun _ => 0) 7
    ((fun _ => 0 : Nat → Nat) 7 + opAccrued .claimInitialOp (demoEmpty 7) 1)

/-- The demonstration state (address 7 claimed at time 1) is reachable. -/
theorem reach_demoClaimed : Reach demoClaimed demoAcc 1 :=
  @Reach.step demoEmpty (fun _ => 0) 0 7 Op.claimInitialOp 1 demoClaimed
    Reach.init (Nat.zero_le 1) Nat.one_pos rfl

/-- C3: conservation — in every reachable state, a claimed account's three
buckets sum (in 64-bit unsigned arithmetic) to `INITIAL_GRANT` plus the
total interest ever accrued for that account; stake and unstake only move
value between buckets and only accrual creates value. -/
theorem conservation_reachable (st : LedgerState) (acc : Nat → Nat) (t : Nat)
    (h : Reach st acc t) (u : Nat) (hc : (st u).hasClaimed = true) :
    ((st u).liquidBalance.val + (st u).stakedBalance.val +
      (st u).pendingInterest.val) % M64 = (INITIAL_GRANT + acc u) % M64 :=
  ((reach_inv st acc t h u).2.2.2.2.2.2 hc).1

/-- Witness for C3 at the reachable demonstration state. -/
theorem conservation_reachable_witness :
    ((demoClaimed 7).liquidBalance.val + (demoClaimed 7).stakedBalance.val +
      (demoClaimed 7).pendingInterest.val) % M64 = (INITIAL_GRANT + demoAcc 7) % M64 :=
  conservation_reachable demoClaimed demoAcc 1 reach_demoClaimed 7 (by decide)

/-- C9: grant invariant — in every reachable state, each encrypted handle
stored in a claimed account carries decrypt-grants for exactly two
principals, the ledger contract and the account owner; no operation ever
grants another principal. -/
theorem grants_exactly_two (st : LedgerState) (acc : Nat → Nat) (t : Nat)
    (h : Reach st acc t) (u : Nat) (hc : (st u).hasClaimed = true) :
    grantedExactly (st u).liquidBalance u ∧
    grantedExactly (st u).stakedBalance u ∧
    grantedExactly (st u).pendingInterest u :=
  ⟨((reach_inv st acc t h u).2.2.2.2.2.2 hc).2.1,
   ((reach_inv st acc t h u).2.2.2.2.2.2 hc).2.2.1,
   ((reach_inv st acc t h u).2.2.2.2.2.2 hc).2.2.2⟩

/-- Witness for C9 at the reachable demonstration state. -/
theorem grants_exactly_two_witness :
    grantedExactly (demoClaimed 7).liquidBalance 7 ∧
    grantedExactly (demoClaimed 7).stakedBalance 7 ∧
    grantedExactly (demoClaimed 7).pendingInterest 7 :=
  grants_exactly_two demoClaimed demoAcc 1 reach_demoClaimed 7 (by decide)

/-- C10: with strictly positive block timestamps, in every reachable state
an account has claimed iff its accrual checkpoint is positive; hence the
bootstrap branch of `_settleRewards` (checkpoint `0`) is unreachable from
the public interface, whose settling callers all require `hasClaimed`. -/
theorem claimed_iff_timestamp_pos (st : LedgerState) (acc : Nat → Nat) (t : Nat)
    (h : Reach st acc t) (u : Nat) :
    ((st u).hasClaimed = true ↔ 0 < (st u).lastAccrualTimestamp) ∧
    ((st u).hasClaimed = true → (st u).lastAccrualTimestamp ≠ 0) :=
  ⟨(reach_inv st acc t h u).2.2.2.2.1,
   fun hc => Nat.pos_iff_ne_zero.mp ((reach_inv st acc t h u).2.2.2.2.1.mp hc)⟩

/-- Witness for C10 at the reachable demonstration state. -/
theorem claimed_iff_timestamp_pos_witness :
    (((demoClaimed 7).hasClaimed = true ↔ 0 < (demoClaimed 7).lastAccrualTimestamp) ∧
      ((demoClaimed 7).hasClaimed = true → (demoClaimed 7).lastAccrualTimestamp ≠ 0)) ∧
    ((demoClaimed 7).hasClaimed = true ∧ 0 < (demoClaimed 7).lastAccrualTimestamp) :=
  ⟨claimed_iff_timestamp_pos demoClaimed demoAcc 1 reach_demoClaimed 7,
    by decide, by decide⟩

/-- Ledger after address `7` (staked 500 at time 2) calls `stake 0` at time
86403, one day and one second after its checkpoint. -/
def cexAfter : LedgerState := applyOr demoStaked (stake demoStaked 7 0 86403)

/-- C5 counterexample: with checkpoint 2 and 500 staked, a `stake` at time
86403 computes one elapsed day and accrues interest (pending goes from 0 to
5), yet the stored checkpoint becomes 86403 — the current time — and not
`2 + 1 * 86400`; so when interest is computed the checkpoint does not
advance by the whole-day multiple, contradicting the claim. -/
theorem timestamp_advance_counterexample :
    (demoStaked 7).hasClaimed = true ∧
    (demoStaked 7).lastAccrualTimestamp = 2 ∧
    (demoStaked 7).stakedBalance.val = 500 ∧
    (demoStaked 7).pendingInterest.val = 0 ∧
    (cexAfter 7).pendingInterest.val = 5 ∧
    (86403 - 2) / 86400 = 1 ∧
    (cexAfter 7).lastAccrualTimestamp = 86403 ∧
    ¬ (cexAfter 7).lastAccrualTimestamp = 2 + 1 * 86400 := by
  decide

/-- C5 (amended): across every successful operation on a reachable state,
`lastAccrualTimestamp` never decreases; every successful mutating operation
sets the caller's checkpoint to the current block time (the whole-day
advance made inside `_settleRewards` is then overwritten, whether or not
interest was due); and an operation less than one full day after the
checkpoint leaves `pendingInterest` unchanged, except `claimInterest`,
which resets it to zero. -/
theorem timestamp_monotone_amended (st stN : LedgerState) (acc : Nat → Nat)
    (t user tN : Nat) (op : Op)
    (h : Reach st acc t) (hle : t ≤ tN) (_hpos : 0 < tN)
    (hexec : exec st user op tN = .ok stN) :
    (∀ v, (st v).lastAccrualTimestamp ≤ (stN v).lastAccrualTimestamp) ∧
    (stN user).lastAccrualTimestamp = tN ∧
    ((st user).hasClaimed = true → tN < (st user).lastAccrualTimestamp + 86400 →
      ((op = .claimInterestOp → (stN user).pendingInterest.val = 0) ∧
       (op ≠ .claimInterestOp →
         (stN user).pendingInterest = (st user).pendingInterest))) := by
  have hinv := reach_inv st acc t h
  have hlastle : (st user).lastAccrualTimestamp ≤ tN :=
    le_trans (hinv user).2.2.2.1 hle
  have hmono : ∀ (R : Account), R.lastAccrualTimestamp = tN →
      stN = Function.update st user R →
      (∀ v, (st v).lastAccrualTimestamp ≤ (stN v).lastAccrualTimestamp) ∧
      (stN user).lastAccrualTimestamp = tN := by
    intro R hR hst
    subst hst
    refine ⟨?_, by simp [Function.update_same, hR]⟩
    intro v
    by_cases hv : v = user
    · subst hv
      simp [Function.update_same, hR, hlastle]
    · simp [Function.update_noteq hv]
  cases op with
  | claimInitialOp =>
      by_cases hc : (st user).hasClaimed = true
      · rw [show exec st user .claimInitialOp tN = claimInitial st user tN from rfl,
          claimInitial_already st user tN hc] at hexec
        exact absurd hexec (by simp)
      · simp only [exec] at hexec
        have hcf : (st user).hasClaimed = false := by simpa using hc
        simp only [claimInitial, hcf, Bool.false_eq_true, if_false,
          Except.ok.injEq] at hexec
        obtain ⟨h1, h2⟩ := hmono _ rfl hexec.symm
        exact ⟨h1, h2, fun hcc => absurd hcc (by simp [hcf])⟩
  | stakeOp amt =>
      by_cases hc : (st user).hasClaimed = true
      · simp only [exec] at hexec
        rw [stake_eq st user amt tN hc] at hexec
        simp only [Except.ok.injEq] at hexec
        obtain ⟨h1, h2⟩ := hmono _ rfl hexec.symm
        refine ⟨h1, h2, ?_⟩
        intro _ hsub
        have hl0 : (st user).lastAccrualTimestamp ≠ 0 :=
          Nat.pos_iff_ne_zero.mp ((hinv user).2.2.2.2.1.mp hc)
        have hnoop := settleRewards_noop_of_subday (st user) user tN hl0 hsub
        refine ⟨by simp, fun _ => ?_⟩
        subst hexec
        simp [Function.update_same, hnoop]
      · have hcf : (st user).hasClaimed = false := by simpa using hc
        rw [show exec st user (.stakeOp amt) tN = stake st user amt tN from rfl,
          stake_requires_claim st user amt tN hcf] at hexec
        exact absurd hexec (by simp)
  | unstakeOp amt =>
      by_cases hc : (st user).hasClaimed = true
      · simp only [exec] at hexec
        rw [unstake_eq st user amt tN hc] at hexec
        simp only [Except.ok.injEq] at hexec
        obtain ⟨h1, h2⟩ := hmono _ rfl hexec.symm
        refine ⟨h1, h2, ?_⟩
        intro _ hsub
        have hl0 : (st user).lastAccrualTimestamp ≠ 0 :=
          Nat.pos_iff_ne_zero.mp ((hinv user).2.2.2.2.1.mp hc)
        have hnoop := settleRewards_noop_of_subday (st user) user tN hl0 hsub
        refine ⟨by simp, fun _ => ?_⟩
        subst hexec
        simp [Function.update_same, hnoop]
      · have hcf : (st user).hasClaimed = false := by simpa using hc
        rw [show exec st user (.unstakeOp amt) tN = unstake st user amt tN from rfl,
          unstake_requires_claim st user amt tN hcf] at hexec
        exact absurd hexec (by simp)
  | claimInterestOp =>
      by_cases hc : (st user).hasClaimed = true
      · simp only [exec] at hexec
        rw [claimInterest_eq st user tN hc] at hexec
        simp only [Except.map, Except.ok.injEq] at hexec
        obtain ⟨h1, h2⟩ := hmono _ rfl hexec.symm
        refine ⟨h1, h2, ?_⟩
        intro _ _
        refine ⟨fun _ => ?_, fun hne => absurd rfl hne⟩
        subst hexec
        simp [Function.update_same, allowValue, FHE.asEuint64]
      · have hcf : (st user).hasClaimed = false := by simpa using hc
        simp only [exec] at hexec
        rw [claimInterest_requires_claim st user tN hcf] at hexec
        exact absurd hexec (by simp [Except.map])

/-- Witness for the amended C5: address 7 stakes 500 at time 2, one second
after its claim — a sub-day gap, so pending interest is untouched and the
checkpoint is stamped with the current time. -/
theorem timestamp_monotone_amended_witness :
    (∀ v, (demoClaimed v).lastAccrualTimestamp ≤ (demoStaked v).lastAccrualTimestamp) ∧
    (demoStaked 7).lastAccrualTimestamp = 2 ∧
    ((demoClaimed 7).hasClaimed = true → 2 < (demoClaimed 7).lastAccrualTimestamp + 86400 →
      ((Op.stakeOp 500 = .claimInterestOp → (demoStaked 7).pendingInterest.val = 0) ∧
       (Op.stakeOp 500 ≠ .claimInterestOp →
         (demoStaked 7).pendingInterest = (demoClaimed 7).pendingInterest))) :=
  timestamp_monotone_amended demoClaimed demoStaked demoAcc 1 7 2 (.stakeOp 500)
    reach_demoClaimed (by decide) (by decide) rfl
